import Mathlib

/-!
# Verification of the brainfuck compiler and virtual machine

This file gives a shallow embedding of the two source variants of the
repository — `src/brainfuck.rs` (namespace `BF`) and `src/src/main.rs`
(namespace `Main`) — and proves properties of the compiler (run-length
folding, loop-jump resolution, start-of-program comment-loop elision,
error reporting) and of the virtual machine (wraparound arithmetic,
circular tape addressing, input semantics).

Rust's `%` on `isize` is truncated remainder, embedded as `Int.tmod`.
Rust `as u8` / `as usize` casts of the (always nonnegative) results are
embedded as `Int.toNat` composed with `% 256` where the value can exceed
255.  Byte cells and tape indices are `Nat`; the byte tape is embedded
as a function `Nat → Nat` with a pointwise updater.
-/

set_option maxHeartbeats 1000000

namespace BF

/-- Instructions of the VM, from `enum Inst` in src/brainfuck.rs. -/
inductive Inst where
  | Inc (n : Nat)
  | Dec (n : Nat)
  | ShiftRight (n : Nat)
  | ShiftLeft (n : Nat)
  | Input (n : Nat)
  | Output (n : Nat)
  | LoopStart (i : Nat)
  | LoopEnd (i : Nat)
deriving DecidableEq, Repr

/-- Compiler scan state: the local mutable variables of `compile` in
src/brainfuck.rs (`output`, `loops`, `index`, `line`, `column`).
`loops` entries are `(index, line, column)`; the head of the list is the
top of the Rust `Vec` stack (the most recently pushed entry). -/
structure CState where
  output : List Inst
  loops : List (Nat × Nat × Nat)
  index : Nat
  line : Nat
  column : Nat
deriving DecidableEq, Repr

/-- Compile errors: the `error(...)` process exits of `compile`,
embedded as error values carrying the reported line and column. -/
inductive CErr where
  | unbalancedClose (line column : Nat)
  | unterminatedOpen (line column : Nat)
deriving DecidableEq, Repr

/-- The `sized_inst!` macro of src/brainfuck.rs: if the last instruction
of `output` matches the kind being appended (probed by `matchLast`),
overwrite `output[index - 1]` with the count increased by one; otherwise
push a fresh instruction with count 1 and advance `index`. -/
def sizedInst (matchLast : Inst → Option Nat) (mk : Nat → Inst) (st : CState) : CState :=
  match st.output.getLast? with
  | some lastInst =>
    match matchLast lastInst with
    | some n => { st with output := st.output.set (st.index - 1) (mk (n + 1)) }
    | none => { st with output := st.output ++ [mk 1], index := st.index + 1 }
  | none => { st with output := st.output ++ [mk 1], index := st.index + 1 }

/-- One iteration of the `for c in source.chars()` loop of `compile` in
src/brainfuck.rs: bump `column`, then dispatch on the character. -/
def cstep (st0 : CState) (c : Char) : Except CErr CState :=
  let st := { st0 with column := st0.column + 1 }
  if c = '+' then
    .ok (sizedInst (fun i => match i with | .Inc n => some n | _ => none) .Inc st)
  else if c = '-' then
    .ok (sizedInst (fun i => match i with | .Dec n => some n | _ => none) .Dec st)
  else if c = '>' then
    .ok (sizedInst (fun i => match i with | .ShiftRight n => some n | _ => none) .ShiftRight st)
  else if c = '<' then
    .ok (sizedInst (fun i => match i with | .ShiftLeft n => some n | _ => none) .ShiftLeft st)
  else if c = ',' then
    .ok (sizedInst (fun i => match i with | .Input n => some n | _ => none) .Input st)
  else if c = '.' then
    .ok (sizedInst (fun i => match i with | .Output n => some n | _ => none) .Output st)
  else if c = '[' then
    .ok { st with
            output := st.output ++ [.LoopStart st.index],
            loops := (st.index, st.line, st.column) :: st.loops,
            index := st.index + 1 }
  else if c = ']' then
    match st.loops with
    | (0, _, _) :: _ =>
      .ok { output := [], loops := [], index := 0, line := st.line, column := st.column }
    | (Nat.succ i, _, _) :: ls =>
      .ok { st with
              output := (st.output.set (i + 1) (.LoopStart st.index)) ++ [.LoopEnd (i + 1)],
              loops := ls, index := st.index + 1 }
    | [] => .error (.unbalancedClose st.line st.column)
  else if c = '\n' then
    .ok { st with line := st.line + 1, column := 0 }
  else
    .ok st

/-- The character loop of `compile`, folded over the source text. -/
def compileChars : CState → List Char → Except CErr CState
  | st, [] => .ok st
  | st, c :: cs =>
    match cstep st c with
    | .error e => .error e
    | .ok st1 => compileChars st1 cs

/-- Initial scan state of `compile`. -/
def initState : CState :=
  { output := [], loops := [], index := 0, line := 1, column := 0 }

/-- `compile` of src/brainfuck.rs: scan the source, then fail with
`Unterminated '['` at the position stored in the innermost remaining
loop-stack entry (`loops.last()`), or return the instruction buffer. -/
def compile (src : List Char) : Except CErr (List Inst) :=
  match compileChars initState src with
  | .error e => .error e
  | .ok st =>
    match st.loops with
    | (_, l, c) :: _ => .error (.unterminatedOpen l c)
    | [] => .ok st.output

/-- `const TAPE_LENGTH: usize = 30000`. -/
def TAPE_LENGTH : Nat := 30000

/-- Runtime errors of the VM (the stdin-read process exits). -/
inductive RtErr where
  | readFailed
deriving DecidableEq, Repr

/-- The VM of src/brainfuck.rs, with the process's byte streams made
explicit: `input` is the remaining stdin bytes, `output` the bytes
written so far. -/
structure Vm where
  memory : Nat → Nat
  mp : Nat
  ip : Nat
  program : List Inst
  input : List Nat
  output : List Nat

/-- Pointwise store into the byte tape. -/
def updMem (m : Nat → Nat) (i v : Nat) : Nat → Nat :=
  fun j => if j = i then v else m j

/-- The `change!` macro: `((v % d) + d) % d` with Rust's truncated `%`,
where `v` is the already-combined `$number $op $amount` as `isize`. -/
def change (v d : Int) : Int := (Int.tmod v d + d).tmod d

/-- The `for _ in 0..amount` loop of the `Input` arm: read one stdin
byte at a time into the current cell; a failed read aborts the run. -/
def inputLoop (mp : Nat) : Nat → (Nat → Nat) → List Nat → Except RtErr ((Nat → Nat) × List Nat)
  | 0, mem, inp => .ok (mem, inp)
  | n + 1, mem, inp =>
    match inp with
    | [] => .error .readFailed
    | b :: rest => inputLoop mp n (updMem mem mp b) rest

/-- `Vm::execute` of src/brainfuck.rs, dispatching on one instruction.
Note the source passes `u8::MAX` (= 255) as the divisor for cell
arithmetic and `TAPE_LENGTH` (= 30000) for pointer arithmetic. -/
def executeInst (inst : Inst) (vm : Vm) : Except RtErr Vm :=
  match inst with
  | .Inc a =>
    .ok { vm with memory := updMem vm.memory vm.mp (change ((vm.memory vm.mp : Int) + (a : Int)) 255).toNat }
  | .Dec a =>
    .ok { vm with memory := updMem vm.memory vm.mp (change ((vm.memory vm.mp : Int) - (a : Int)) 255).toNat }
  | .ShiftRight a =>
    .ok { vm with mp := (change ((vm.mp : Int) + (a : Int)) (TAPE_LENGTH : Int)).toNat }
  | .ShiftLeft a =>
    .ok { vm with mp := (change ((vm.mp : Int) - (a : Int)) (TAPE_LENGTH : Int)).toNat }
  | .Output a =>
    .ok { vm with output := vm.output ++ List.replicate a (vm.memory vm.mp) }
  | .Input a =>
    match inputLoop vm.mp a vm.memory vm.input with
    | .error e => .error e
    | .ok (mem, inp) => .ok { vm with memory := mem, input := inp }
  | .LoopStart i =>
    .ok (if vm.memory vm.mp = 0 then { vm with ip := i } else vm)
  | .LoopEnd i =>
    .ok (if vm.memory vm.mp ≠ 0 then { vm with ip := i } else vm)

/-- Execute the instruction at the current instruction pointer. -/
def execute (vm : Vm) : Except RtErr Vm :=
  match vm.program[vm.ip]? with
  | none => .ok vm
  | some inst => executeInst inst vm

/-- `Vm::start`: `while ip < program.len() { execute(); ip += 1 }`,
with explicit fuel bounding the number of iterations. -/
def vmRun : Nat → Vm → Except RtErr Vm
  | 0, vm => .ok vm
  | fuel + 1, vm =>
    if vm.ip < vm.program.length then
      match execute vm with
      | .error e => .error e
      | .ok vm1 => vmRun fuel { vm1 with ip := vm1.ip + 1 }
    else .ok vm

/-- `Vm::new`: zeroed tape, both cursors at 0. -/
def Vm.new (program : List Inst) (input : List Nat) : Vm :=
  { memory := fun _ => 0, mp := 0, ip := 0, program := program, input := input, output := [] }

end BF

namespace Main

/-- Instructions of the VM, from `enum Inst` in src/src/main.rs:
`Input` and `Output` carry no repeat count there. -/
inductive Inst where
  | Inc (n : Nat)
  | Dec (n : Nat)
  | ShiftRight (n : Nat)
  | ShiftLeft (n : Nat)
  | Input
  | Output
  | LoopStart (i : Nat)
  | LoopEnd (i : Nat)
deriving DecidableEq, Repr

/-- Compiler scan state of `compile` in src/src/main.rs; `loops`
entries hold only the emission index. -/
structure CState where
  output : List Inst
  loops : List Nat
  index : Nat
  line : Nat
  column : Nat
deriving DecidableEq, Repr

/-- Compile errors of src/src/main.rs, as error values with position. -/
inductive CErr where
  | unbalancedClose (line column : Nat)
  | unterminatedOpen (line column : Nat)
deriving DecidableEq, Repr

/-- The `amount_command!` macro of src/src/main.rs: if the last emitted
instruction matches, overwrite the last element (`last_mut`) with the
count increased by one; otherwise push a fresh instruction. -/
def sizedInst (matchLast : Inst → Option Nat) (mk : Nat → Inst) (st : CState) : CState :=
  match st.output.getLast? with
  | some lastInst =>
    match matchLast lastInst with
    | some n => { st with output := st.output.set (st.output.length - 1) (mk (n + 1)) }
    | none => { st with output := st.output ++ [mk 1], index := st.index + 1 }
  | none => { st with output := st.output ++ [mk 1], index := st.index + 1 }

/-- One iteration of the character loop of `compile` in
src/src/main.rs; `,` and `.` push unconditionally. -/
def cstep (st0 : CState) (c : Char) : Except CErr CState :=
  let st := { st0 with column := st0.column + 1 }
  if c = '+' then
    .ok (sizedInst (fun i => match i with | .Inc n => some n | _ => none) .Inc st)
  else if c = '-' then
    .ok (sizedInst (fun i => match i with | .Dec n => some n | _ => none) .Dec st)
  else if c = '>' then
    .ok (sizedInst (fun i => match i with | .ShiftRight n => some n | _ => none) .ShiftRight st)
  else if c = '<' then
    .ok (sizedInst (fun i => match i with | .ShiftLeft n => some n | _ => none) .ShiftLeft st)
  else if c = ',' then
    .ok { st with output := st.output ++ [.Input], index := st.index + 1 }
  else if c = '.' then
    .ok { st with output := st.output ++ [.Output], index := st.index + 1 }
  else if c = '[' then
    .ok { st with
            output := st.output ++ [.LoopStart st.index],
            loops := st.index :: st.loops,
            index := st.index + 1 }
  else if c = ']' then
    match st.loops with
    | 0 :: _ =>
      .ok { output := [], loops := [], index := 0, line := st.line, column := st.column }
    | (Nat.succ i) :: ls =>
      .ok { st with
              output := (st.output.set (i + 1) (.LoopStart st.index)) ++ [.LoopEnd (i + 1)],
              loops := ls, index := st.index + 1 }
    | [] => .error (.unbalancedClose st.line st.column)
  else if c = '\n' then
    .ok { st with line := st.line + 1, column := 0 }
  else
    .ok st

/-- The character loop of `compile`, folded over the source text. -/
def compileChars : CState → List Char → Except CErr CState
  | st, [] => .ok st
  | st, c :: cs =>
    match cstep st c with
    | .error e => .error e
    | .ok st1 => compileChars st1 cs

/-- Initial scan state of `compile`. -/
def initState : CState :=
  { output := [], loops := [], index := 0, line := 1, column := 0 }

/-- `compile` of src/src/main.rs: on a non-empty loop stack at end of
input it reports the CURRENT line and column (the end-of-input scan
position), not a position recorded at the `[`. -/
def compile (src : List Char) : Except CErr (List Inst) :=
  match compileChars initState src with
  | .error e => .error e
  | .ok st =>
    if st.loops = [] then .ok st.output
    else .error (.unterminatedOpen st.line st.column)

/-- `const TAPE_LENGTH: usize = 30000`. -/
def TAPE_LENGTH : Nat := 30000

/-- Runtime errors of the VM of src/src/main.rs. -/
inductive RtErr where
  | readFailed
deriving DecidableEq, Repr

/-- The VM of src/src/main.rs with explicit byte streams. -/
structure Vm where
  memory : Nat → Nat
  mp : Nat
  ip : Nat
  program : List Inst
  input : List Nat
  output : List Nat

/-- Pointwise store into the byte tape. -/
def updMem (m : Nat → Nat) (i v : Nat) : Nat → Nat :=
  fun j => if j = i then v else m j

/-- The `modulo!` macro of src/src/main.rs: `limit` is incremented by
one first, then the value is reduced into `[0, limit]` by cases. -/
def modulo (value limit : Int) : Int :=
  let l := limit + 1
  if l ≤ value then Int.tmod value l
  else if value < 0 then l - Int.tmod ((value.natAbs : Int)) l
  else value

/-- `Vm::execute` of src/src/main.rs.  Cell arithmetic passes
`u8::MAX` (so the effective modulus is 256) and the result is cast
`as u8` (a truncating cast, embedded as `% 256`); pointer arithmetic
passes `TAPE_LENGTH` (so the effective modulus is 30001). -/
def executeInst (inst : Inst) (vm : Vm) : Except RtErr Vm :=
  match inst with
  | .Inc a =>
    .ok { vm with memory := updMem vm.memory vm.mp ((modulo ((vm.memory vm.mp : Int) + (a : Int)) 255).toNat % 256) }
  | .Dec a =>
    .ok { vm with memory := updMem vm.memory vm.mp ((modulo ((vm.memory vm.mp : Int) - (a : Int)) 255).toNat % 256) }
  | .ShiftRight a =>
    .ok { vm with mp := (modulo ((vm.mp : Int) + (a : Int)) (TAPE_LENGTH : Int)).toNat }
  | .ShiftLeft a =>
    .ok { vm with mp := (modulo ((vm.mp : Int) - (a : Int)) (TAPE_LENGTH : Int)).toNat }
  | .Output =>
    .ok { vm with output := vm.output ++ [vm.memory vm.mp] }
  | .Input =>
    match vm.input with
    | [] => .error .readFailed
    | b :: rest => .ok { vm with memory := updMem vm.memory vm.mp b, input := rest }
  | .LoopStart i =>
    .ok (if vm.memory vm.mp = 0 then { vm with ip := i } else vm)
  | .LoopEnd i =>
    .ok (if vm.memory vm.mp ≠ 0 then { vm with ip := i } else vm)

/-- `Vm::new`: zeroed tape, both cursors at 0. -/
def Vm.new (program : List Inst) (input : List Nat) : Vm :=
  { memory := fun _ => 0, mp := 0, ip := 0, program := program, input := input, output := [] }

end Main

/-! ## Helper lemmas about the wraparound arithmetic -/

/-- Truncated remainder of a negated dividend is the negated remainder. -/
theorem negTmod (a b : Int) : (-a).tmod b = -(a.tmod b) := by
  rw [Int.tmod_def, Int.tmod_def, Int.neg_tdiv]
  ring

/-- The `change!` macro of src/brainfuck.rs computes the mathematical
(nonnegative) residue of its combined argument modulo the divisor. -/
theorem change_eq_emod (v d : Int) (hd : 0 < d) : BF.change v d = v % d := by
  unfold BF.change
  have hlow : -d < v.tmod d := by
    rcases le_or_lt 0 v with hv | hv
    · have := Int.tmod_nonneg d hv
      omega
    · have h1 : v.tmod d = -((-v).tmod d) := by rw [negTmod]; ring
      have h2 : (-v).tmod d < d := Int.tmod_lt_of_pos _ hd
      omega
  have hnn : 0 ≤ v.tmod d + d := by omega
  rw [Int.tmod_eq_emod hnn (le_of_lt hd)]
  rw [Int.tmod_def]
  have harr : v - d * v.tdiv d + d = v + d * (1 - v.tdiv d) := by ring
  rw [harr, Int.add_mul_emod_self_left]

/-! ## C1, C2: wraparound arithmetic of the two VMs -/

/-- C1: the claim says `Decrement(1)` on a cell holding 0 yields 255
(cells wrap modulo 256).  In src/brainfuck.rs the divisor passed to
`change!` is `u8::MAX` = 255, so the cell becomes 254, refuting the
claim there; src/src/main.rs (whose `modulo!` adds one to the limit)
yields 255 as the claim states.  This theorem evaluates both `execute`
implementations at the failing input. -/
theorem C1_dec_wrap_divergence :
    (BF.executeInst (.Dec 1) (BF.Vm.new [] [])).map (fun vm => vm.memory vm.mp) = .ok 254
    ∧ (BF.executeInst (.Dec 1) (BF.Vm.new [] [])).map (fun vm => vm.memory vm.mp) ≠ .ok 255
    ∧ (Main.executeInst (.Dec 1) (Main.Vm.new [] [])).map (fun vm => vm.memory vm.mp) = .ok 255 := by
  refine ⟨rfl, ?_, rfl⟩
  intro h
  have h2 : (Except.ok 254 : Except BF.RtErr Nat) = Except.ok 255 := h
  injection h2 with h3
  omega

/-- C2: the claim says `ShiftLeft(1)` at memory pointer 0 wraps to
`TAPE_LENGTH - 1` = 29999 and shifts never error.  src/brainfuck.rs
does exactly that; src/src/main.rs feeds `TAPE_LENGTH` through its
`modulo!` macro (which adds one to the limit), so the pointer becomes
30000 — equal to `TAPE_LENGTH`, not a valid tape index, so the next
cell access indexes `memory[30000]` out of bounds.  This theorem
evaluates both `execute` implementations at the failing input. -/
theorem C2_shift_wrap_divergence :
    (BF.executeInst (.ShiftLeft 1) (BF.Vm.new [] [])).map (fun vm => vm.mp)
      = .ok (BF.TAPE_LENGTH - 1)
    ∧ (Main.executeInst (.ShiftLeft 1) (Main.Vm.new [] [])).map (fun vm => vm.mp)
      = .ok Main.TAPE_LENGTH
    ∧ (Main.executeInst (.ShiftLeft 1) (Main.Vm.new [] [])).map
        (fun vm => decide (vm.mp < Main.TAPE_LENGTH)) = .ok false := by
  refine ⟨rfl, rfl, rfl⟩

/-! ## C6: compiling and running "+[-]" -/

/-- C6: `"+[-]"` compiles to `[Inc 1, LoopStart 3, Dec 1, LoopEnd 1]`
(the `JumpIfNonZero` targets index 1, the `JumpIfZero` is resolved to
the close instruction's index 3), and running it on a fresh VM halts —
the instruction pointer reaches the program length, after which larger
fuel changes nothing — with the current cell holding 0. -/
theorem C6_plus_clear_loop :
    BF.compile ['+', '[', '-', ']']
      = .ok [.Inc 1, .LoopStart 3, .Dec 1, .LoopEnd 1]
    ∧ (BF.vmRun 5 (BF.Vm.new [.Inc 1, .LoopStart 3, .Dec 1, .LoopEnd 1] [])).map
        (fun vm => (vm.ip, vm.memory vm.mp)) = .ok (4, 0)
    ∧ (BF.vmRun 100 (BF.Vm.new [.Inc 1, .LoopStart 3, .Dec 1, .LoopEnd 1] [])).map
        (fun vm => (vm.ip, vm.memory vm.mp)) = .ok (4, 0)
    ∧ ([BF.Inst.Inc 1, .LoopStart 3, .Dec 1, .LoopEnd 1] : List BF.Inst).length = 4 := by
  refine ⟨rfl, rfl, rfl, rfl⟩

/-! ## C5: run-length folding -/

/-- Generic run lemma for the folding branches of src/brainfuck.rs:
scanning `k` more copies of an operator character whose last emitted
instruction is already of that kind bumps the stored count `k` times. -/
theorem bfSizedRun (matchLast : BF.Inst → Option Nat) (mk : Nat → BF.Inst) (c : Char)
    (hc : ∀ st : BF.CState,
      BF.cstep st c = .ok (BF.sizedInst matchLast mk { st with column := st.column + 1 }))
    (hm : ∀ n, matchLast (mk n) = some n) :
    ∀ (k m line col : Nat),
      BF.compileChars ⟨[mk m], [], 1, line, col⟩ (List.replicate k c)
        = .ok ⟨[mk (m + k)], [], 1, line, col + k⟩ := by
  intro k
  induction k with
  | zero => intro m line col; simp [BF.compileChars]
  | succ k ih =>
    intro m line col
    rw [List.replicate_succ]
    simp only [BF.compileChars, hc, BF.sizedInst]
    simp only [List.getLast?_singleton, hm]
    rw [show (1 : Nat) - 1 = 0 from rfl]
    simp only [List.set]
    rw [ih (m + 1) line (col + 1)]
    have h1 : m + 1 + k = m + (k + 1) := by omega
    have h2 : col + 1 + k = col + (k + 1) := by omega
    rw [h1, h2]

/-- Folding a whole run from the initial state, src/brainfuck.rs. -/
theorem bfRunLength (matchLast : BF.Inst → Option Nat) (mk : Nat → BF.Inst) (c : Char)
    (hc : ∀ st : BF.CState,
      BF.cstep st c = .ok (BF.sizedInst matchLast mk { st with column := st.column + 1 }))
    (hm : ∀ n, matchLast (mk n) = some n) :
    ∀ k : Nat, BF.compile (List.replicate (k + 1) c) = .ok [mk (k + 1)] := by
  intro k
  rw [List.replicate_succ]
  show BF.compile (c :: List.replicate k c) = _
  simp only [BF.compile, BF.compileChars, hc, BF.sizedInst, BF.initState]
  simp only [List.getLast?_nil]
  rw [show BF.compileChars ⟨[] ++ [mk 1], [], 0 + 1, 1, 0 + 1⟩ (List.replicate k c)
      = BF.compileChars ⟨[mk 1], [], 1, 1, 1⟩ (List.replicate k c) from rfl]
  rw [bfSizedRun matchLast mk c hc hm k 1 1 1]
  have h1 : 1 + k = k + 1 := by omega
  rw [h1]

/-- Generic run lemma for the folding branches of src/src/main.rs. -/
theorem mainSizedRun (matchLast : Main.Inst → Option Nat) (mk : Nat → Main.Inst) (c : Char)
    (hc : ∀ st : Main.CState,
      Main.cstep st c = .ok (Main.sizedInst matchLast mk { st with column := st.column + 1 }))
    (hm : ∀ n, matchLast (mk n) = some n) :
    ∀ (k m line col : Nat),
      Main.compileChars ⟨[mk m], [], 1, line, col⟩ (List.replicate k c)
        = .ok ⟨[mk (m + k)], [], 1, line, col + k⟩ := by
  intro k
  induction k with
  | zero => intro m line col; simp [Main.compileChars]
  | succ k ih =>
    intro m line col
    rw [List.replicate_succ]
    simp only [Main.compileChars, hc, Main.sizedInst]
    simp only [List.getLast?_singleton, hm]
    simp only [List.length_singleton]
    rw [show (1 : Nat) - 1 = 0 from rfl]
    simp only [List.set]
    rw [ih (m + 1) line (col + 1)]
    have h1 : m + 1 + k = m + (k + 1) := by omega
    have h2 : col + 1 + k = col + (k + 1) := by omega
    rw [h1, h2]

/-- Folding a whole run from the initial state, src/src/main.rs. -/
theorem mainRunLength (matchLast : Main.Inst → Option Nat) (mk : Nat → Main.Inst) (c : Char)
    (hc : ∀ st : Main.CState,
      Main.cstep st c = .ok (Main.sizedInst matchLast mk { st with column := st.column + 1 }))
    (hm : ∀ n, matchLast (mk n) = some n) :
    ∀ k : Nat, Main.compile (List.replicate (k + 1) c) = .ok [mk (k + 1)] := by
  intro k
  rw [List.replicate_succ]
  show Main.compile (c :: List.replicate k c) = _
  simp only [Main.compile, Main.compileChars, hc, Main.sizedInst, Main.initState]
  simp only [List.getLast?_nil]
  rw [show Main.compileChars ⟨[] ++ [mk 1], [], 0 + 1, 1, 0 + 1⟩ (List.replicate k c)
      = Main.compileChars ⟨[mk 1], [], 1, 1, 1⟩ (List.replicate k c) from rfl]
  rw [mainSizedRun matchLast mk c hc hm k 1 1 1]
  have h1 : 1 + k = k + 1 := by omega
  rw [h1]
  rfl

/-- Non-folding push run for `,` and `.` of src/src/main.rs: each
character appends one fresh instruction. -/
theorem mainPushRun (c : Char) (inst : Main.Inst)
    (hc : ∀ st : Main.CState,
      Main.cstep st c = .ok { st with output := st.output ++ [inst], index := st.index + 1, column := st.column + 1 }) :
    ∀ (k : Nat) (st : Main.CState),
      Main.compileChars st (List.replicate k c)
        = .ok ⟨st.output ++ List.replicate k inst, st.loops, st.index + k, st.line, st.column + k⟩ := by
  intro k
  induction k with
  | zero => intro st; simp [Main.compileChars]
  | succ k ih =>
    intro st
    rw [List.replicate_succ]
    simp only [Main.compileChars, hc]
    rw [ih]
    have h1 : st.index + 1 + k = st.index + (k + 1) := by omega
    have h2 : st.column + 1 + k = st.column + (k + 1) := by omega
    have h3 : (st.output ++ [inst]) ++ List.replicate k inst
        = st.output ++ List.replicate (k + 1) inst := by
      rw [List.append_assoc]
      rfl
    rw [h1, h2, h3]

/-- Statement helper: the counted instruction that src/brainfuck.rs
emits for each of its six operator characters. -/
def bfOp (c : Char) (n : Nat) : BF.Inst :=
  if c = '+' then .Inc n
  else if c = '-' then .Dec n
  else if c = '>' then .ShiftRight n
  else if c = '<' then .ShiftLeft n
  else if c = ',' then .Input n
  else .Output n

/-- Statement helper: the counted instruction that src/src/main.rs
emits for its four folding operator characters. -/
def mainOp (c : Char) (n : Nat) : Main.Inst :=
  if c = '+' then .Inc n
  else if c = '-' then .Dec n
  else if c = '>' then .ShiftRight n
  else .ShiftLeft n

/-- C5 (counterexample): the claim states that a source consisting of a
run of one repeated operator character — `,` included — compiles to
exactly one instruction.  src/src/main.rs does not fold `,`: compiling
`",,"` yields two `Input` instructions, never a single one. -/
theorem C5_counterexample_main_input :
    Main.compile [',', ','] = .ok [.Input, .Input]
    ∧ ∀ inst : Main.Inst, Main.compile [',', ','] ≠ .ok [inst] := by
  refine ⟨rfl, ?_⟩
  intro inst h
  have h2 : (Except.ok [Main.Inst.Input, .Input] : Except Main.CErr (List Main.Inst))
      = .ok [inst] := h
  injection h2 with h3
  simp at h3

/-- C5 (amended): for every source text that is a run of one repeated
operator character, src/brainfuck.rs compiles all six operators to a
single instruction counting the run length; src/src/main.rs does so
only for `+`, `-`, `>`, `<`, while each `,` or `.` emits one separate
uncounted `Input` / `Output` instruction. -/
theorem C5_run_length_folding :
    (∀ c ∈ ['+', '-', '>', '<', ',', '.'], ∀ n : Nat, 1 ≤ n →
        BF.compile (List.replicate n c) = .ok [bfOp c n])
    ∧ (∀ c ∈ ['+', '-', '>', '<'], ∀ n : Nat, 1 ≤ n →
        Main.compile (List.replicate n c) = .ok [mainOp c n])
    ∧ (∀ n : Nat, Main.compile (List.replicate n ',')
        = .ok (List.replicate n Main.Inst.Input))
    ∧ (∀ n : Nat, Main.compile (List.replicate n '.')
        = .ok (List.replicate n Main.Inst.Output)) := by
  refine ⟨?_, ?_, ?_, ?_⟩
  · intro c hc n hn
    obtain ⟨k, rfl⟩ : ∃ k, n = k + 1 := ⟨n - 1, by omega⟩
    simp only [List.mem_cons, List.not_mem_nil, or_false] at hc
    rcases hc with rfl | rfl | rfl | rfl | rfl | rfl
    · rw [show bfOp '+' (k + 1) = BF.Inst.Inc (k + 1) from rfl]
      exact bfRunLength (fun i => match i with | .Inc n => some n | _ => none) .Inc '+' (fun st => rfl) (fun m => rfl) k
    · rw [show bfOp '-' (k + 1) = BF.Inst.Dec (k + 1) from rfl]
      exact bfRunLength (fun i => match i with | .Dec n => some n | _ => none) .Dec '-' (fun st => rfl) (fun m => rfl) k
    · rw [show bfOp '>' (k + 1) = BF.Inst.ShiftRight (k + 1) from rfl]
      exact bfRunLength (fun i => match i with | .ShiftRight n => some n | _ => none) .ShiftRight '>' (fun st => rfl) (fun m => rfl) k
    · rw [show bfOp '<' (k + 1) = BF.Inst.ShiftLeft (k + 1) from rfl]
      exact bfRunLength (fun i => match i with | .ShiftLeft n => some n | _ => none) .ShiftLeft '<' (fun st => rfl) (fun m => rfl) k
    · rw [show bfOp ',' (k + 1) = BF.Inst.Input (k + 1) from rfl]
      exact bfRunLength (fun i => match i with | .Input n => some n | _ => none) .Input ',' (fun st => rfl) (fun m => rfl) k
    · rw [show bfOp '.' (k + 1) = BF.Inst.Output (k + 1) from rfl]
      exact bfRunLength (fun i => match i with | .Output n => some n | _ => none) .Output '.' (fun st => rfl) (fun m => rfl) k
  · intro c hc n hn
    obtain ⟨k, rfl⟩ : ∃ k, n = k + 1 := ⟨n - 1, by omega⟩
    simp only [List.mem_cons, List.not_mem_nil, or_false] at hc
    rcases hc with rfl | rfl | rfl | rfl
    · rw [show mainOp '+' (k + 1) = Main.Inst.Inc (k + 1) from rfl]
      exact mainRunLength (fun i => match i with | .Inc n => some n | _ => none) .Inc '+' (fun st => rfl) (fun m => rfl) k
    · rw [show mainOp '-' (k + 1) = Main.Inst.Dec (k + 1) from rfl]
      exact mainRunLength (fun i => match i with | .Dec n => some n | _ => none) .Dec '-' (fun st => rfl) (fun m => rfl) k
    · rw [show mainOp '>' (k + 1) = Main.Inst.ShiftRight (k + 1) from rfl]
      exact mainRunLength (fun i => match i with | .ShiftRight n => some n | _ => none) .ShiftRight '>' (fun st => rfl) (fun m => rfl) k
    · rw [show mainOp '<' (k + 1) = Main.Inst.ShiftLeft (k + 1) from rfl]
      exact mainRunLength (fun i => match i with | .ShiftLeft n => some n | _ => none) .ShiftLeft '<' (fun st => rfl) (fun m => rfl) k
  · intro n
    have h := mainPushRun ',' .Input (fun st => rfl) n Main.initState
    simp only [Main.compile, h]
    rfl
  · intro n
    have h := mainPushRun '.' .Output (fun st => rfl) n Main.initState
    simp only [Main.compile, h]
    rfl

/-- C5 (witness): the amended run-length statement instantiated at the
spec's own example `"+++"` and at a two-character comma run. -/
theorem C5_run_length_folding_witness :
    BF.compile (List.replicate 3 '+') = .ok [bfOp '+' 3]
    ∧ Main.compile (List.replicate 3 '+') = .ok [mainOp '+' 3]
    ∧ Main.compile (List.replicate 2 ',') = .ok (List.replicate 2 Main.Inst.Input) := by
  exact ⟨C5_run_length_folding.1 '+' (by decide) 3 (by decide),
         C5_run_length_folding.2.1 '+' (by decide) 3 (by decide),
         C5_run_length_folding.2.2.1 2⟩

/-! ## C7, C8: bracket error reporting -/

/-- Scanning distributes over appending source fragments. -/
theorem BF.compileChars_append (st : BF.CState) (s1 s2 : List Char) :
    BF.compileChars st (s1 ++ s2)
      = match BF.compileChars st s1 with
        | .error e => .error e
        | .ok st1 => BF.compileChars st1 s2 := by
  induction s1 generalizing st with
  | nil => simp [BF.compileChars]
  | cons c cs ih =>
    simp only [List.cons_append, BF.compileChars]
    cases h : BF.cstep st c with
    | error e => simp
    | ok st1 => simp [ih]

/-- C8: whenever the scan reaches a `]` with an empty loop stack — that
is, the prefix before it compiles to a state whose stack is empty — the
whole compilation fails with `UnbalancedClose` at the 1-based line and
column of that `]`; in particular `"]"` alone fails at line 1, column 1
in both source variants. -/
theorem C8_unbalanced_close :
    (∀ (s1 s2 : List Char) (st : BF.CState),
        BF.compileChars BF.initState s1 = .ok st → st.loops = [] →
        BF.compile (s1 ++ ']' :: s2) = .error (.unbalancedClose st.line (st.column + 1)))
    ∧ BF.compile [']'] = .error (.unbalancedClose 1 1)
    ∧ Main.compile [']'] = .error (.unbalancedClose 1 1) := by
  refine ⟨?_, rfl, rfl⟩
  intro s1 s2 st h hl
  have hstep : BF.cstep st ']' = .error (.unbalancedClose st.line (st.column + 1)) := by
    simp [BF.cstep, hl]
  unfold BF.compile
  rw [BF.compileChars_append, h]
  simp only [BF.compileChars, hstep]

/-- C7 (counterexample): for `"[+"` the innermost (only) unmatched `[`
is scanned at line 1, column 1, but src/src/main.rs reports the
`Unterminated bracket` error at the end-of-input position, column 2. -/
theorem C7_counterexample_main_position :
    Main.compile ['[', '+'] = .error (.unterminatedOpen 1 2)
    ∧ Main.compile ['[', '+'] ≠ .error (.unterminatedOpen 1 1) := by
  refine ⟨rfl, ?_⟩
  intro h
  have h2 : (Except.error (Main.CErr.unterminatedOpen 1 2) : Except Main.CErr (List Main.Inst))
      = .error (.unterminatedOpen 1 1) := h
  injection h2 with h3
  simp at h3

/-- C7 (amended): at end of input with a non-empty loop stack,
src/brainfuck.rs fails with `UnterminatedOpen` at the line and column
stored in the innermost (most recently pushed) stack entry — recorded
when that `[` was scanned, as `"[+[++"` (innermost `[` at column 3)
shows — while src/src/main.rs fails at the current end-of-input scan
position; both report line 1, column 1 for the source `"["`. -/
theorem C7_unterminated_open :
    (∀ (s : List Char) (st : BF.CState) (e : Nat × Nat × Nat) (rest : List (Nat × Nat × Nat)),
        BF.compileChars BF.initState s = .ok st → st.loops = e :: rest →
        BF.compile s = .error (.unterminatedOpen e.2.1 e.2.2))
    ∧ (∀ (s : List Char) (st : Main.CState),
        Main.compileChars Main.initState s = .ok st → st.loops ≠ [] →
        Main.compile s = .error (.unterminatedOpen st.line st.column))
    ∧ BF.compile ['['] = .error (.unterminatedOpen 1 1)
    ∧ BF.compile ['[', '+', '[', '+', '+'] = .error (.unterminatedOpen 1 3)
    ∧ Main.compile ['['] = .error (.unterminatedOpen 1 1) := by
  refine ⟨?_, ?_, rfl, rfl, rfl⟩
  · intro s st e rest h hl
    obtain ⟨i, l, c⟩ := e
    unfold BF.compile
    rw [h]
    simp [hl]
  · intro s st h hl
    unfold Main.compile
    rw [h]
    simp [hl]

/-! ## C9: input semantics -/

/-- Behavior of the byte-reading loop of the `Input` arm: with enough
bytes it consumes exactly `n` and the cell ends at the last byte read;
with fewer than `n` bytes it fails. -/
theorem inputLoopSpec :
    ∀ (n mp : Nat) (mem : Nat → Nat) (inp : List Nat),
      (n ≤ inp.length →
        ∃ mem2, BF.inputLoop mp n mem inp = .ok (mem2, inp.drop n)
          ∧ (1 ≤ n → mem2 mp = inp.getD (n - 1) 0)
          ∧ (n = 0 → mem2 = mem))
      ∧ (inp.length < n → BF.inputLoop mp n mem inp = .error .readFailed) := by
  intro n
  induction n with
  | zero =>
    intro mp mem inp
    refine ⟨fun _ => ⟨mem, ?_, ?_, fun _ => rfl⟩, fun h => absurd h (by omega)⟩
    · simp [BF.inputLoop]
    · omega
  | succ n ih =>
    intro mp mem inp
    cases inp with
    | nil =>
      refine ⟨fun h => absurd h (by simp), fun _ => rfl⟩
    | cons b rest =>
      constructor
      · intro h
        have hn : n ≤ rest.length := by simpa using h
        obtain ⟨mem2, h1, h2, h3⟩ := (ih mp (BF.updMem mem mp b) rest).1 hn
        refine ⟨mem2, ?_, ?_, by omega⟩
        · simpa [BF.inputLoop] using h1
        · intro _
          rcases Nat.eq_zero_or_pos n with hz | hp
          · subst hz
            rw [h3 rfl]
            simp [BF.updMem]
          · rw [h2 hp]
            rcases n with _ | m
            · omega
            · simp
      · intro h
        have hn : rest.length < n := by simpa using h
        have := (ih mp (BF.updMem mem mp b) rest).2 hn
        simpa [BF.inputLoop] using this

/-- C9: executing `Input(n)` with at least `n` bytes available on the
input source consumes exactly `n` bytes (the remaining stream is the
`n`-byte drop) and stores the last byte consumed in the current cell;
with fewer than `n` bytes available the read aborts the run. -/
theorem C9_input_reads_n_keeps_last :
    (∀ (vm : BF.Vm) (n : Nat), 1 ≤ n → n ≤ vm.input.length →
      ∃ mem2, BF.executeInst (.Input n) vm
          = .ok { vm with memory := mem2, input := vm.input.drop n }
        ∧ mem2 vm.mp = vm.input.getD (n - 1) 0)
    ∧ (∀ (vm : BF.Vm) (n : Nat), vm.input.length < n →
      BF.executeInst (.Input n) vm = .error .readFailed) := by
  constructor
  · intro vm n h1 h2
    obtain ⟨mem2, ha, hb, _⟩ := (inputLoopSpec n vm.mp vm.memory vm.input).1 h2
    refine ⟨mem2, ?_, hb h1⟩
    simp [BF.executeInst, ha]
  · intro vm n h
    have := (inputLoopSpec n vm.mp vm.memory vm.input).2 h
    simp [BF.executeInst, this]

/-- C9 (witness): `Input(2)` on input stream `[7, 8, 9]` leaves the
stream at `[9]` and the current cell holding 8; `Input(2)` on the
single-byte stream `[7]` aborts. -/
theorem C9_input_reads_n_keeps_last_witness :
    (∃ mem2, BF.executeInst (.Input 2) (BF.Vm.new [] [7, 8, 9])
        = .ok { BF.Vm.new [] [7, 8, 9] with memory := mem2, input := [9] }
      ∧ mem2 0 = 8)
    ∧ BF.executeInst (.Input 2) (BF.Vm.new [] [7]) = .error .readFailed := by
  constructor
  · obtain ⟨mem2, h1, h2⟩ :=
      C9_input_reads_n_keeps_last.1 (BF.Vm.new [] [7, 8, 9]) 2 (by omega) (by decide)
    exact ⟨mem2, h1, h2⟩
  · exact C9_input_reads_n_keeps_last.2 (BF.Vm.new [] [7]) 2 (by decide)

/-! ## C10: the emission index tracks the output length -/

/-- The `sized_inst!` branches preserve `index = output.length`. -/
theorem bfSizedIndexInv (ml : BF.Inst → Option Nat) (mk : Nat → BF.Inst) (s : BF.CState)
    (hi : s.index = s.output.length) :
    (BF.sizedInst ml mk s).index = (BF.sizedInst ml mk s).output.length := by
  unfold BF.sizedInst
  split
  · split
    · simp [hi, List.length_set]
    · simp [hi]
  · simp [hi]

/-- Every step of the scanner preserves `index = output.length`. -/
theorem bfStepIndexInv (st : BF.CState) (c : Char) (st2 : BF.CState)
    (h : BF.cstep st c = .ok st2) (hi : st.index = st.output.length) :
    st2.index = st2.output.length := by
  unfold BF.cstep at h
  split_ifs at h
  · cases h
    exact bfSizedIndexInv _ _ _ hi
  · cases h
    exact bfSizedIndexInv _ _ _ hi
  · cases h
    exact bfSizedIndexInv _ _ _ hi
  · cases h
    exact bfSizedIndexInv _ _ _ hi
  · cases h
    exact bfSizedIndexInv _ _ _ hi
  · cases h
    exact bfSizedIndexInv _ _ _ hi
  · cases h
    simp [hi]
  · dsimp only at h
    split at h
    · cases h
      rfl
    · cases h
      simp [hi, List.length_set]
    · cases h
  · cases h
    exact hi
  · cases h
    exact hi

/-- Scanning any source from any state preserves `index = output.length`. -/
theorem bfScanIndexInv :
    ∀ (s : List Char) (st st2 : BF.CState),
      BF.compileChars st s = .ok st2 → st.index = st.output.length →
      st2.index = st2.output.length := by
  intro s
  induction s with
  | nil =>
    intro st st2 h hi
    cases h
    exact hi
  | cons c cs ih =>
    intro st st2 h hi
    unfold BF.compileChars at h
    split at h
    · cases h
    · rename_i st1 hstep
      exact ih st1 st2 h (bfStepIndexInv st c st1 hstep hi)

/-- C10: throughout compilation the running emission index equals the
output buffer's length; a `[` pushes a stack entry recording exactly
the current output length (hence 0 iff the buffer is empty), and the
`]` handler produces the cleared state (empty output, empty stack,
index 0) precisely when the popped entry records index 0. -/
theorem C10_index_tracks_output :
    (∀ (st : BF.CState) (c : Char) (st2 : BF.CState),
        BF.cstep st c = .ok st2 → st.index = st.output.length →
        st2.index = st2.output.length)
    ∧ (∀ (s : List Char) (st : BF.CState),
        BF.compileChars BF.initState s = .ok st → st.index = st.output.length)
    ∧ (∀ (st st2 : BF.CState), st.index = st.output.length →
        BF.cstep st '[' = .ok st2 →
        ∃ rest, st2.loops = (st.output.length, st.line, st.column + 1) :: rest
          ∧ (st.output.length = 0 ↔ st.output = []))
    ∧ (∀ (st : BF.CState) (i l c : Nat) (ls : List (Nat × Nat × Nat)) (st2 : BF.CState),
        st.loops = (i, l, c) :: ls → BF.cstep st ']' = .ok st2 →
        ((st2.output = [] ∧ st2.loops = [] ∧ st2.index = 0) ↔ i = 0)) := by
  refine ⟨bfStepIndexInv, ?_, ?_, ?_⟩
  · intro s st h
    exact bfScanIndexInv s BF.initState st h rfl
  · intro st st2 hi h
    have h2 : BF.cstep st '[' = .ok { st with
        output := st.output ++ [.LoopStart st.index],
        loops := (st.index, st.line, st.column + 1) :: st.loops,
        index := st.index + 1, column := st.column + 1 } := rfl
    rw [h2] at h
    cases h
    refine ⟨st.loops, ?_, ?_⟩
    · simp [hi]
    · exact List.length_eq_zero
  · intro st i l c ls st2 hl h
    have hstep : BF.cstep st ']'
        = match st.loops with
          | (0, _, _) :: _ =>
            .ok { output := [], loops := [], index := 0, line := st.line, column := st.column + 1 }
          | (Nat.succ j, _, _) :: ls2 =>
            .ok { st with
                    output := (st.output.set (j + 1) (.LoopStart st.index)) ++ [.LoopEnd (j + 1)],
                    loops := ls2, index := st.index + 1, column := st.column + 1 }
          | [] => .error (.unbalancedClose st.line (st.column + 1)) := rfl
    rw [hstep, hl] at h
    cases i with
    | zero =>
      cases h
      simp
    | succ j =>
      cases h
      simp

/-- C10 (witness): the invariant applied to the concrete scan of
`"+["` and the clearing `]` step applied on a concrete state whose
stack top records index 0. -/
theorem C10_index_tracks_output_witness :
    (⟨[BF.Inst.Inc 1, .LoopStart 1], [(1, 1, 2)], 2, 1, 2⟩ : BF.CState).index
      = (⟨[BF.Inst.Inc 1, .LoopStart 1], [(1, 1, 2)], 2, 1, 2⟩ : BF.CState).output.length
    ∧ (((⟨[], [], 0, 1, 2⟩ : BF.CState).output = []
          ∧ (⟨[], [], 0, 1, 2⟩ : BF.CState).loops = []
          ∧ (⟨[], [], 0, 1, 2⟩ : BF.CState).index = 0) ↔ (0 : Nat) = 0) :=
  ⟨C10_index_tracks_output.2.1 ['+', '[']
      ⟨[BF.Inst.Inc 1, .LoopStart 1], [(1, 1, 2)], 2, 1, 2⟩ rfl,
   C10_index_tracks_output.2.2.2 ⟨[], [(0, 1, 1)], 0, 1, 1⟩ 0 1 1 []
      ⟨[], [], 0, 1, 2⟩ rfl rfl⟩

/-! ## C4: start-of-program comment loops -/

/-- Bracket balance check for the inside of a matching pair: scanning
from nesting depth `d`, every `]` must close a bracket opened at depth
at least 1 (so the closing `]` of the enclosing pair is never consumed
by the body). -/
def insideOk : List Char → Nat → Bool
  | [], _ => true
  | c :: cs, d =>
    if c = '[' then insideOk cs (d + 1)
    else if c = ']' then decide (1 ≤ d) && insideOk cs (d - 1)
    else insideOk cs d

/-- Net nesting depth after scanning a character list from depth `d`. -/
def endDepth : List Char → Nat → Nat
  | [], d => d
  | c :: cs, d =>
    if c = '[' then endDepth cs (d + 1)
    else if c = ']' then endDepth cs (d - 1)
    else endDepth cs d

/-- Characters other than `[` and `]` do not touch the loop stack, may
fail nothing, and never decrease the emission index. -/
theorem bfCstepOther (st : BF.CState) (c : Char) (h1 : c ≠ '[') (h2 : c ≠ ']') :
    ∃ st2, BF.cstep st c = .ok st2 ∧ st2.loops = st.loops ∧ st.index ≤ st2.index := by
  have hsized : ∀ (ml : BF.Inst → Option Nat) (mk : Nat → BF.Inst) (s : BF.CState),
      (BF.sizedInst ml mk s).loops = s.loops ∧ s.index ≤ (BF.sizedInst ml mk s).index := by
    intro ml mk s
    unfold BF.sizedInst
    split
    · split
      · exact ⟨rfl, le_refl _⟩
      · exact ⟨rfl, Nat.le_succ _⟩
    · exact ⟨rfl, Nat.le_succ _⟩
  unfold BF.cstep
  split_ifs with h3 h4 h5 h6 h7 h8 h9
  · refine ⟨_, rfl, ?_, ?_⟩
    · exact (hsized _ _ _).1
    · exact (hsized _ _ { st with column := st.column + 1 }).2
  · refine ⟨_, rfl, ?_, ?_⟩
    · exact (hsized _ _ _).1
    · exact (hsized _ _ { st with column := st.column + 1 }).2
  · refine ⟨_, rfl, ?_, ?_⟩
    · exact (hsized _ _ _).1
    · exact (hsized _ _ { st with column := st.column + 1 }).2
  · refine ⟨_, rfl, ?_, ?_⟩
    · exact (hsized _ _ _).1
    · exact (hsized _ _ { st with column := st.column + 1 }).2
  · refine ⟨_, rfl, ?_, ?_⟩
    · exact (hsized _ _ _).1
    · exact (hsized _ _ { st with column := st.column + 1 }).2
  · refine ⟨_, rfl, ?_, ?_⟩
    · exact (hsized _ _ _).1
    · exact (hsized _ _ { st with column := st.column + 1 }).2
  · exact ⟨_, rfl, rfl, le_refl _⟩
  · exact ⟨_, rfl, rfl, le_refl _⟩

/-- Scanning the inside of a matching bracket pair from a state whose
stack holds `E` (the body's own open brackets, all recording index at
least 1) on top of `rest` succeeds, never touches `rest`, and keeps
all its own stack entries at index at least 1 — in particular the
clearing `Some(0)` branch never fires inside such a body. -/
theorem bfScanInside :
    ∀ (body : List Char) (d : Nat) (st : BF.CState) (E rest : List (Nat × Nat × Nat)),
      insideOk body d = true → st.loops = E ++ rest → E.length = d →
      (∀ e ∈ E, 1 ≤ e.1) → 1 ≤ st.index →
      ∃ st2 E2, BF.compileChars st body = .ok st2
        ∧ st2.loops = E2 ++ rest ∧ E2.length = endDepth body d
        ∧ (∀ e ∈ E2, 1 ≤ e.1) ∧ 1 ≤ st2.index := by
  intro body
  induction body with
  | nil =>
    intro d st E rest hin hl hlen hge hidx
    exact ⟨st, E, rfl, hl, hlen.trans rfl, hge, hidx⟩
  | cons c cs ih =>
    intro d st E rest hin hl hlen hge hidx
    by_cases hop : c = '['
    · subst hop
      have hstep : BF.cstep st '[' = .ok { st with
          output := st.output ++ [.LoopStart st.index],
          loops := (st.index, st.line, st.column + 1) :: st.loops,
          index := st.index + 1, column := st.column + 1 } := rfl
      have hin2 : insideOk cs (d + 1) = true := by
        simpa [insideOk] using hin
      have hE : ∀ e ∈ ((st.index, st.line, st.column + 1) :: E), 1 ≤ e.1 := by
        intro e he
        rcases List.mem_cons.mp he with rfl | he2
        · exact hidx
        · exact hge e he2
      obtain ⟨st2, E2, hc, hl2, hlen2, hge2, hidx2⟩ :=
        ih (d + 1)
          { st with
              output := st.output ++ [.LoopStart st.index],
              loops := (st.index, st.line, st.column + 1) :: st.loops,
              index := st.index + 1, column := st.column + 1 }
          ((st.index, st.line, st.column + 1) :: E) rest hin2
          (by simp [hl]) (by simp [hlen]) hE (Nat.succ_le_succ (Nat.zero_le _))
      refine ⟨st2, E2, ?_, hl2, ?_, hge2, hidx2⟩
      · unfold BF.compileChars
        rw [hstep]
        exact hc
      · rw [hlen2]
        simp [endDepth]
    · by_cases hcl : c = ']'
      · subst hcl
        have hd : 1 ≤ d ∧ insideOk cs (d - 1) = true := by
          have h := hin
          rw [show insideOk (']' :: cs) d
              = (decide (1 ≤ d) && insideOk cs (d - 1)) from rfl] at h
          simpa using h
      -- the stack must start with a body entry
        cases E with
        | nil => simp at hlen; omega
        | cons e E2 =>
          obtain ⟨i, le, ce⟩ := e
          have hge1 : 1 ≤ i := hge (i, le, ce) (List.mem_cons_self _ _)
          obtain ⟨j, rfl⟩ : ∃ j, i = j + 1 := ⟨i - 1, by omega⟩
          have hl2 : st.loops = (j + 1, le, ce) :: (E2 ++ rest) := by simpa using hl
          have hstep : BF.cstep st ']' = .ok { st with
              output := (st.output.set (j + 1) (.LoopStart st.index)) ++ [.LoopEnd (j + 1)],
              loops := E2 ++ rest, index := st.index + 1, column := st.column + 1 } := by
            have : BF.cstep st ']'
                = match st.loops with
                  | (0, _, _) :: _ =>
                    .ok { output := [], loops := [], index := 0,
                          line := st.line, column := st.column + 1 }
                  | (Nat.succ j, _, _) :: ls2 =>
                    .ok { st with
                            output := (st.output.set (j + 1) (.LoopStart st.index)) ++ [.LoopEnd (j + 1)],
                            loops := ls2, index := st.index + 1, column := st.column + 1 }
                  | [] => .error (.unbalancedClose st.line (st.column + 1)) := rfl
            rw [this, hl2]
          obtain ⟨st2, E3, hc, hl3, hlen3, hge3, hidx3⟩ :=
            ih (d - 1)
              { st with
                  output := (st.output.set (j + 1) (.LoopStart st.index)) ++ [.LoopEnd (j + 1)],
                  loops := E2 ++ rest, index := st.index + 1, column := st.column + 1 }
              E2 rest hd.2 rfl (by simp at hlen; omega)
              (fun e he => hge e (List.mem_cons_of_mem _ he)) (Nat.succ_le_succ (Nat.zero_le _))
          refine ⟨st2, E3, ?_, hl3, ?_, hge3, hidx3⟩
          · unfold BF.compileChars
            rw [hstep]
            exact hc
          · rw [hlen3]
            simp [endDepth]
      · obtain ⟨st1, hstep, hloops, hle⟩ := bfCstepOther st c hop hcl
        have hin2 : insideOk cs d = true := by
          simpa [insideOk, hop, hcl] using hin
        obtain ⟨st2, E2, hc, hl2, hlen2, hge2, hidx2⟩ :=
          ih d st1 E rest hin2 (hloops.trans hl) hlen hge (by omega)
        refine ⟨st2, E2, ?_, hl2, ?_, hge2, hidx2⟩
        · unfold BF.compileChars
          rw [hstep]
          exact hc
        · rw [hlen2]
          simp [endDepth, hop, hcl]

/-- Unfolding equation for one scan step. -/
theorem bfCompileCons (st : BF.CState) (c : Char) (cs : List Char) :
    BF.compileChars st (c :: cs)
      = match BF.cstep st c with
        | .error e => .error e
        | .ok st1 => BF.compileChars st1 cs := rfl

/-- Scanning a start-of-program comment loop `[body]` (the state has
emission index 0 and no open loops) discards everything accumulated and
continues on the remaining source from the pristine state — only the
scan position survives. -/
theorem bfCommentBlock (body restSrc : List Char) (st0 : BF.CState)
    (h0 : st0.index = 0) (hl : st0.loops = [])
    (hin : insideOk body 0 = true) (hend : endDepth body 0 = 0) :
    ∃ l2 c2, BF.compileChars st0 ('[' :: body ++ ']' :: restSrc)
      = BF.compileChars ⟨[], [], 0, l2, c2⟩ restSrc := by
  have hstep : BF.cstep st0 '[' = .ok { st0 with
      output := st0.output ++ [.LoopStart st0.index],
      loops := (st0.index, st0.line, st0.column + 1) :: st0.loops,
      index := st0.index + 1, column := st0.column + 1 } := rfl
  obtain ⟨st2, E2, hc, hl2, hlen2, hge2, hidx2⟩ :=
    bfScanInside body 0
      { st0 with
          output := st0.output ++ [.LoopStart st0.index],
          loops := (st0.index, st0.line, st0.column + 1) :: st0.loops,
          index := st0.index + 1, column := st0.column + 1 }
      [] [(st0.index, st0.line, st0.column + 1)] hin
      (by simp [hl]) rfl (by simp) (Nat.succ_le_succ (Nat.zero_le _))
  have hE2 : E2 = [] := List.length_eq_zero.mp (by rw [hlen2, hend])
  have hl2b : st2.loops = [(0, st0.line, st0.column + 1)] := by
    rw [hl2, hE2, h0]
    rfl
  have hstep2 : BF.cstep st2 ']' = .ok ⟨[], [], 0, st2.line, st2.column + 1⟩ := by
    have hform : BF.cstep st2 ']'
        = match st2.loops with
          | (0, _, _) :: _ =>
            .ok { output := [], loops := [], index := 0,
                  line := st2.line, column := st2.column + 1 }
          | (Nat.succ j, _, _) :: ls2 =>
            .ok { st2 with
                    output := (st2.output.set (j + 1) (.LoopStart st2.index)) ++ [.LoopEnd (j + 1)],
                    loops := ls2, index := st2.index + 1, column := st2.column + 1 }
          | [] => .error (.unbalancedClose st2.line (st2.column + 1)) := rfl
    rw [hform, hl2b]
  refine ⟨st2.line, st2.column + 1, ?_⟩
  have h1 : BF.compileChars st0 ('[' :: (body ++ ']' :: restSrc))
      = BF.compileChars
          { st0 with
              output := st0.output ++ [.LoopStart st0.index],
              loops := (st0.index, st0.line, st0.column + 1) :: st0.loops,
              index := st0.index + 1, column := st0.column + 1 }
          (body ++ ']' :: restSrc) := by
    rw [bfCompileCons, hstep]
  rw [show ('[' :: body ++ ']' :: restSrc) = ('[' :: (body ++ ']' :: restSrc)) from rfl, h1,
      BF.compileChars_append, hc]
  show BF.compileChars st2 (']' :: restSrc) = _
  rw [bfCompileCons, hstep2]

/-- A sequence of start-of-program comment loops scans to the pristine
state regardless of the bodies' contents. -/
theorem bfCommentBlocks :
    ∀ (bodies : List (List Char)),
      (∀ b ∈ bodies, insideOk b 0 = true ∧ endDepth b 0 = 0) →
      ∀ (l c : Nat), ∃ l2 c2,
        BF.compileChars ⟨[], [], 0, l, c⟩ ((bodies.map (fun b => '[' :: b ++ [']'])).flatten)
          = .ok ⟨[], [], 0, l2, c2⟩ := by
  intro bodies
  induction bodies with
  | nil =>
    intro hb l c
    exact ⟨l, c, rfl⟩
  | cons b bs ih =>
    intro hb l c
    have hsrc : (((b :: bs).map (fun x => '[' :: x ++ [']'])).flatten)
        = '[' :: b ++ ']' :: ((bs.map (fun x => '[' :: x ++ [']'])).flatten) := by
      simp
    obtain ⟨l2, c2, heq⟩ :=
      bfCommentBlock b ((bs.map (fun x => '[' :: x ++ [']'])).flatten) ⟨[], [], 0, l, c⟩
        rfl rfl (hb b (by simp)).1 (hb b (by simp)).2
    obtain ⟨l3, c3, hrec⟩ := ih (fun b2 hb2 => hb b2 (List.mem_cons_of_mem _ hb2)) l2 c2
    refine ⟨l3, c3, ?_⟩
    rw [hsrc, heq, hrec]

/-- C4: a `[` scanned while the output buffer is empty (emission index
0, no open loops) together with its matching `]` — any body whose
brackets stay balanced relative to the pair — makes the compiler throw
away the whole accumulated output, clear the loop stack, and continue
on the rest of the source from the pristine state; consequently a
source consisting only of such comment loops compiles to the empty
instruction sequence regardless of the bodies' contents. -/
theorem C4_comment_loop_elision :
    (∀ (body restSrc : List Char) (st0 : BF.CState),
        st0.index = 0 → st0.loops = [] →
        insideOk body 0 = true → endDepth body 0 = 0 →
        ∃ l2 c2, BF.compileChars st0 ('[' :: body ++ ']' :: restSrc)
          = BF.compileChars ⟨[], [], 0, l2, c2⟩ restSrc)
    ∧ (∀ bodies : List (List Char),
        (∀ b ∈ bodies, insideOk b 0 = true ∧ endDepth b 0 = 0) →
        BF.compile ((bodies.map (fun b => '[' :: b ++ [']'])).flatten) = .ok []) := by
  constructor
  · exact bfCommentBlock
  · intro bodies hb
    obtain ⟨l2, c2, h⟩ := bfCommentBlocks bodies hb 1 0
    unfold BF.compile
    rw [show BF.initState = (⟨[], [], 0, 1, 0⟩ : BF.CState) from rfl, h]

/-- C4 (witness): the spec's own example `"[-][+]"` compiles to the
empty program, via the theorem applied to the two bodies. -/
theorem C4_comment_loop_elision_witness :
    BF.compile ((([['-'], ['+']] : List (List Char)).map (fun b => '[' :: b ++ [']'])).flatten)
      = .ok [] :=
  C4_comment_loop_elision.2 [['-'], ['+']] (by decide)

/-- C8 (witness): the general statement applied to the source `"+]"`,
whose stray `]` sits at line 1, column 2. -/
theorem C8_unbalanced_close_witness :
    BF.compile (['+'] ++ ']' :: []) = .error (.unbalancedClose 1 2) :=
  C8_unbalanced_close.1 ['+'] [] ⟨[BF.Inst.Inc 1], [], 1, 1, 1⟩ rfl rfl

/-- C7 (witness): the general statements applied to concrete sources —
src/brainfuck.rs on `"[+"` (stack entry recorded at 1:1) and
src/src/main.rs on `"["` (end-of-input position 1:1). -/
theorem C7_unterminated_open_witness :
    BF.compile ['[', '+'] = .error (.unterminatedOpen 1 1)
    ∧ Main.compile ['['] = .error (.unterminatedOpen 1 1) :=
  ⟨C7_unterminated_open.1 ['[', '+'] ⟨[.LoopStart 0, .Inc 1], [(0, 1, 1)], 2, 1, 2⟩
      (0, 1, 1) [] rfl rfl,
   C7_unterminated_open.2.1 ['['] ⟨[.LoopStart 0], [0], 1, 1, 1⟩ rfl (by decide)⟩

/-! ## C3: loop-jump resolution -/

/-- An instruction that is neither jump form. -/
def notLoop (v : BF.Inst) : Prop :=
  (∀ j, v ≠ BF.Inst.LoopStart j) ∧ (∀ j, v ≠ BF.Inst.LoopEnd j)

/-- Position `p` is not recorded by any open-loop stack entry. -/
def offStack (ls : List (Nat × Nat × Nat)) (p : Nat) : Prop :=
  ∀ e ∈ ls, e.1 ≠ p

/-- Invariant of the scanner state of `compile` in src/brainfuck.rs
tying the emitted jump instructions to the open-loop stack:
the emission index tracks the output length; stack entries are
strictly decreasing placeholders (`LoopStart` pointing at itself);
every `LoopStart` not on the stack is resolved — it points forward at
a `LoopEnd` that points back at it; every `LoopEnd` points back at a
`LoopStart` pointing forward at it; resolved intervals never cross
each other (`nocross`) nor any stack entry (`stacksep`). -/
structure LoopInv (st : BF.CState) : Prop where
  ilen : st.index = st.output.length
  bound : ∀ e ∈ st.loops, e.1 < st.output.length
  pdec : st.loops.Pairwise (fun a b => b.1 < a.1)
  placeholder : ∀ e ∈ st.loops, st.output[e.1]? = some (.LoopStart e.1)
  resolvedS : ∀ (p j : Nat), st.output[p]? = some (.LoopStart j) → offStack st.loops p →
      p < j ∧ st.output[j]? = some (.LoopEnd p)
  resolvedE : ∀ (q i : Nat), st.output[q]? = some (.LoopEnd i) →
      i < q ∧ st.output[i]? = some (.LoopStart q)
  nocross : ∀ (p1 j1 p2 j2 : Nat), st.output[p1]? = some (.LoopStart j1) → offStack st.loops p1 →
      st.output[p2]? = some (.LoopStart j2) → offStack st.loops p2 →
      p1 < p2 → p2 < j1 → j2 < j1
  stacksep : ∀ e ∈ st.loops, ∀ (p j : Nat), st.output[p]? = some (.LoopStart j) →
      offStack st.loops p → e.1 < p ∨ j < e.1

/-- The invariant holds in the empty (initial or cleared) state. -/
theorem loopInvEmpty (l c : Nat) : LoopInv ⟨[], [], 0, l, c⟩ := by
  refine ⟨rfl, ?_, ?_, ?_, ?_, ?_, ?_, ?_⟩
  · intro e he
    simp at he
  · simp
  · intro e he
    simp at he
  · intro p j hp
    simp at hp
  · intro q i hq
    simp at hq
  · intro p1 j1 p2 j2 hp1
    simp at hp1
  · intro e he
    simp at he

/-- Appending a non-jump instruction (and advancing the index)
preserves the invariant. -/
theorem loopInvPush (st : BF.CState) (v : BF.Inst) (ls2 : List (Nat × Nat × Nat))
    (l2 c2 : Nat) (hInv : LoopInv st) (hv : notLoop v) (hls : ls2 = st.loops) :
    LoopInv ⟨st.output ++ [v], ls2, st.index + 1, l2, c2⟩ := by
  subst hls
  have n := st.output.length
  have hS : ∀ (p j : Nat), (st.output ++ [v])[p]? = some (BF.Inst.LoopStart j) →
      st.output[p]? = some (BF.Inst.LoopStart j) := by
    intro p j hp
    rcases Nat.lt_trichotomy p st.output.length with hlt | heq | hgt
    · rwa [List.getElem?_append_left hlt] at hp
    · subst heq
      rw [List.getElem?_concat_length] at hp
      exact absurd (Option.some.inj hp) (hv.1 j)
    · rw [List.getElem?_eq_none (by simpa using hgt)] at hp
      cases hp
  have hE : ∀ (q i : Nat), (st.output ++ [v])[q]? = some (BF.Inst.LoopEnd i) →
      st.output[q]? = some (BF.Inst.LoopEnd i) := by
    intro q i hq
    rcases Nat.lt_trichotomy q st.output.length with hlt | heq | hgt
    · rwa [List.getElem?_append_left hlt] at hq
    · subst heq
      rw [List.getElem?_concat_length] at hq
      exact absurd (Option.some.inj hq) (hv.2 i)
    · rw [List.getElem?_eq_none (by simpa using hgt)] at hq
      cases hq
  have hup : ∀ (p : Nat) (x : BF.Inst), st.output[p]? = some x → (st.output ++ [v])[p]? = some x := by
    intro p x hp
    have hlt := (List.getElem?_eq_some_iff.mp hp).1
    rwa [List.getElem?_append_left hlt]
  refine ⟨?_, ?_, hInv.pdec, ?_, ?_, ?_, ?_, ?_⟩
  · simp [hInv.ilen]
  · intro e he
    have := hInv.bound e he
    simp
    omega
  · intro e he
    exact hup _ _ (hInv.placeholder e he)
  · intro p j hp hoff
    obtain ⟨h1, h2⟩ := hInv.resolvedS p j (hS p j hp) hoff
    exact ⟨h1, hup _ _ h2⟩
  · intro q i hq
    obtain ⟨h1, h2⟩ := hInv.resolvedE q i (hE q i hq)
    exact ⟨h1, hup _ _ h2⟩
  · intro p1 j1 p2 j2 hp1 ho1 hp2 ho2 hlt1 hlt2
    exact hInv.nocross p1 j1 p2 j2 (hS p1 j1 hp1) ho1 (hS p2 j2 hp2) ho2 hlt1 hlt2
  · intro e he p j hp hoff
    exact hInv.stacksep e he p j (hS p j hp) hoff

/-- Overwriting the last instruction — known to be a non-jump — with
another non-jump (the fold branch of `sized_inst!`) preserves the
invariant. -/
theorem loopInvFold (st : BF.CState) (v w : BF.Inst) (hInv : LoopInv st)
    (hlast : st.output.getLast? = some w) (hw : notLoop w) (hv : notLoop v) :
    LoopInv { st with output := st.output.set (st.index - 1) v } := by
  have hwpos : st.output[st.output.length - 1]? = some w := by
    rwa [List.getLast?_eq_getElem?] at hlast
  have hn : 1 ≤ st.output.length := by
    by_contra hcon
    rw [List.getElem?_eq_none (by omega)] at hwpos
    cases hwpos
  have hidx : st.index - 1 = st.output.length - 1 := by rw [hInv.ilen]
  have hget : ∀ (p : Nat), (st.output.set (st.index - 1) v)[p]?
      = if st.output.length - 1 = p then some v else st.output[p]? := by
    intro p
    rw [hidx, List.getElem?_set]
    split
    · rename_i hpe
      rw [if_pos (by omega)]
    · rfl
  have hS : ∀ (p j : Nat), (st.output.set (st.index - 1) v)[p]? = some (BF.Inst.LoopStart j) →
      st.output[p]? = some (BF.Inst.LoopStart j) := by
    intro p j hp
    rw [hget] at hp
    split at hp
    · exact absurd (Option.some.inj hp) (hv.1 j)
    · exact hp
  have hE : ∀ (q i : Nat), (st.output.set (st.index - 1) v)[q]? = some (BF.Inst.LoopEnd i) →
      st.output[q]? = some (BF.Inst.LoopEnd i) := by
    intro q i hq
    rw [hget] at hq
    split at hq
    · exact absurd (Option.some.inj hq) (hv.2 i)
    · exact hq
  have hupS : ∀ (p j : Nat), st.output[p]? = some (BF.Inst.LoopStart j) →
      (st.output.set (st.index - 1) v)[p]? = some (BF.Inst.LoopStart j) := by
    intro p j hp
    rw [hget]
    split
    · rename_i hpe
      rw [← hpe] at hp
      rw [hwpos] at hp
      exact absurd (Option.some.inj hp) (hw.1 j)
    · exact hp
  have hupE : ∀ (q i : Nat), st.output[q]? = some (BF.Inst.LoopEnd i) →
      (st.output.set (st.index - 1) v)[q]? = some (BF.Inst.LoopEnd i) := by
    intro q i hq
    rw [hget]
    split
    · rename_i hpe
      rw [← hpe] at hq
      rw [hwpos] at hq
      exact absurd (Option.some.inj hq) (hw.2 i)
    · exact hq
  refine ⟨?_, ?_, hInv.pdec, ?_, ?_, ?_, ?_, ?_⟩
  · simp [hInv.ilen]
  · intro e he
    have := hInv.bound e he
    simpa using this
  · intro e he
    exact hupS _ _ (hInv.placeholder e he)
  · intro p j hp hoff
    obtain ⟨h1, h2⟩ := hInv.resolvedS p j (hS p j hp) hoff
    exact ⟨h1, hupE _ _ h2⟩
  · intro q i hq
    obtain ⟨h1, h2⟩ := hInv.resolvedE q i (hE q i hq)
    exact ⟨h1, hupS _ _ h2⟩
  · intro p1 j1 p2 j2 hp1 ho1 hp2 ho2 hlt1 hlt2
    exact hInv.nocross p1 j1 p2 j2 (hS p1 j1 hp1) ho1 (hS p2 j2 hp2) ho2 hlt1 hlt2
  · intro e he p j hp hoff
    exact hInv.stacksep e he p j (hS p j hp) hoff

/-- Opening a loop — pushing a self-targeted placeholder `LoopStart`
and recording the emission index on the stack — preserves the
invariant. -/
theorem loopInvOpen (st : BF.CState) (a b : Nat) (hInv : LoopInv st) :
    LoopInv ⟨st.output ++ [.LoopStart st.index], (st.index, a, b) :: st.loops,
             st.index + 1, st.line, st.column⟩ := by
  have hnewLen : (st.output ++ [BF.Inst.LoopStart st.index])[st.output.length]?
      = some (.LoopStart st.index) := List.getElem?_concat_length _ _
  have hnewIdx : (st.output ++ [BF.Inst.LoopStart st.index])[st.index]?
      = some (.LoopStart st.index) := by
    have h := hnewLen
    rw [← hInv.ilen] at h
    exact h
  have hS : ∀ (p j : Nat),
      (st.output ++ [BF.Inst.LoopStart st.index])[p]? = some (BF.Inst.LoopStart j) →
      (p < st.output.length ∧ st.output[p]? = some (BF.Inst.LoopStart j))
        ∨ (p = st.output.length ∧ j = st.index) := by
    intro p j hp
    rcases Nat.lt_trichotomy p st.output.length with hlt | heq | hgt
    · rw [List.getElem?_append_left hlt] at hp
      exact Or.inl ⟨hlt, hp⟩
    · subst heq
      rw [hnewLen] at hp
      exact Or.inr ⟨rfl, (BF.Inst.LoopStart.inj (Option.some.inj hp)).symm⟩
    · rw [List.getElem?_eq_none (by simpa using hgt)] at hp
      cases hp
  have hE : ∀ (q i : Nat),
      (st.output ++ [BF.Inst.LoopStart st.index])[q]? = some (BF.Inst.LoopEnd i) →
      q < st.output.length ∧ st.output[q]? = some (BF.Inst.LoopEnd i) := by
    intro q i hq
    rcases Nat.lt_trichotomy q st.output.length with hlt | heq | hgt
    · rw [List.getElem?_append_left hlt] at hq
      exact ⟨hlt, hq⟩
    · subst heq
      rw [hnewLen] at hq
      cases Option.some.inj hq
    · rw [List.getElem?_eq_none (by simpa using hgt)] at hq
      cases hq
  have hup : ∀ (p : Nat) (x : BF.Inst), st.output[p]? = some x →
      (st.output ++ [BF.Inst.LoopStart st.index])[p]? = some x := by
    intro p x hp
    have hlt := (List.getElem?_eq_some_iff.mp hp).1
    rwa [List.getElem?_append_left hlt]
  have hoffTail : ∀ (p : Nat), offStack ((st.index, a, b) :: st.loops) p →
      offStack st.loops p ∧ p ≠ st.index := by
    intro p hoff
    exact ⟨fun e he => hoff e (List.mem_cons_of_mem _ he), fun h =>
      hoff (st.index, a, b) (List.mem_cons_self _ _) (by simpa using h.symm)⟩
  refine ⟨?_, ?_, ?_, ?_, ?_, ?_, ?_, ?_⟩
  · simp [hInv.ilen]
  · intro e he
    rcases List.mem_cons.mp he with rfl | he2
    · simp [hInv.ilen]
    · have := hInv.bound e he2
      simp
      omega
  · refine List.pairwise_cons.mpr ⟨?_, hInv.pdec⟩
    intro e he
    have := hInv.bound e he
    simp [hInv.ilen]
    omega
  · intro e he
    rcases List.mem_cons.mp he with rfl | he2
    · exact hnewIdx
    · exact hup _ _ (hInv.placeholder e he2)
  · intro p j hp hoff
    obtain ⟨hoff2, hpne⟩ := hoffTail p hoff
    rcases hS p j hp with ⟨hlt, hp2⟩ | ⟨rfl, rfl⟩
    · obtain ⟨h1, h2⟩ := hInv.resolvedS p j hp2 hoff2
      exact ⟨h1, hup _ _ h2⟩
    · exact absurd hInv.ilen (by omega)
  · intro q i hq
    obtain ⟨hlt, hq2⟩ := hE q i hq
    obtain ⟨h1, h2⟩ := hInv.resolvedE q i hq2
    exact ⟨h1, hup _ _ h2⟩
  · intro p1 j1 p2 j2 hp1 ho1 hp2 ho2 hlt1 hlt2
    obtain ⟨ho1b, hne1⟩ := hoffTail p1 ho1
    obtain ⟨ho2b, hne2⟩ := hoffTail p2 ho2
    rcases hS p1 j1 hp1 with ⟨hl1, hp1b⟩ | ⟨rfl, rfl⟩
    · rcases hS p2 j2 hp2 with ⟨hl2, hp2b⟩ | ⟨rfl, rfl⟩
      · exact hInv.nocross p1 j1 p2 j2 hp1b ho1b hp2b ho2b hlt1 hlt2
      · exact absurd hInv.ilen (by omega)
    · exact absurd hInv.ilen (by omega)
  · intro e he p j hp hoff
    obtain ⟨hoff2, hpne⟩ := hoffTail p hoff
    rcases hS p j hp with ⟨hlt, hp2⟩ | ⟨rfl, rfl⟩
    · rcases List.mem_cons.mp he with rfl | he2
      · right
        have := (hInv.resolvedS p j hp2 hoff2).2
        have hjlt := (List.getElem?_eq_some_iff.mp this).1
        simp [hInv.ilen]
        omega
      · exact hInv.stacksep e he2 p j hp2 hoff2
    · exact absurd hInv.ilen (by omega)

/-- Closing a loop — patching the matching placeholder `LoopStart` to
the current emission index and appending a `LoopEnd` pointing back at
it — preserves the invariant. -/
theorem loopInvClose (st : BF.CState) (i a b : Nat) (ls : List (Nat × Nat × Nat))
    (hl : st.loops = (i + 1, a, b) :: ls) (hInv : LoopInv st) :
    LoopInv { st with
        output := (st.output.set (i + 1) (.LoopStart st.index)) ++ [.LoopEnd (i + 1)],
        loops := ls, index := st.index + 1 } := by
  have hmem : ((i + 1, a, b) : Nat × Nat × Nat) ∈ st.loops := by
    rw [hl]
    exact List.mem_cons_self _ _
  have hi1 : i + 1 < st.output.length := hInv.bound _ hmem
  have hplace : st.output[i + 1]? = some (.LoopStart (i + 1)) := hInv.placeholder _ hmem
  have htail : ∀ e ∈ ls, e.1 < i + 1 := by
    have hp := hInv.pdec
    rw [hl] at hp
    exact fun e he => (List.pairwise_cons.mp hp).1 e he
  have hidx : st.index = st.output.length := hInv.ilen
  have hat : ∀ (p : Nat),
      ((st.output.set (i + 1) (BF.Inst.LoopStart st.index)) ++ [BF.Inst.LoopEnd (i + 1)])[p]?
        = if p = i + 1 then some (BF.Inst.LoopStart st.index)
          else if p = st.output.length then some (BF.Inst.LoopEnd (i + 1))
          else st.output[p]? := by
    intro p
    rcases Nat.lt_trichotomy p st.output.length with hlt | heq | hgt
    · rw [List.getElem?_append_left (by simpa [List.length_set] using hlt)]
      by_cases hpe : p = i + 1
      · subst hpe
        rw [List.getElem?_set_self (by simpa using hi1), if_pos rfl]
      · rw [List.getElem?_set_ne (by omega), if_neg hpe, if_neg (by omega)]
    · subst heq
      rw [if_neg (by omega), if_pos rfl]
      have hsl : (st.output.set (i + 1) (BF.Inst.LoopStart st.index)).length
          = st.output.length := by simp
      rw [← hsl, List.getElem?_concat_length]
    · rw [if_neg (by omega), if_neg (by omega),
          List.getElem?_eq_none (by simp only [List.length_append, List.length_set,
            List.length_singleton]; omega),
          List.getElem?_eq_none (by omega)]
  have hS2 : ∀ (p j : Nat),
      ((st.output.set (i + 1) (BF.Inst.LoopStart st.index)) ++ [BF.Inst.LoopEnd (i + 1)])[p]?
          = some (BF.Inst.LoopStart j) →
        (p = i + 1 ∧ j = st.index)
        ∨ (p ≠ i + 1 ∧ p < st.output.length ∧ st.output[p]? = some (BF.Inst.LoopStart j)) := by
    intro p j hp
    rw [hat] at hp
    split at hp
    · exact Or.inl ⟨by assumption, (BF.Inst.LoopStart.inj (Option.some.inj hp)).symm⟩
    · split at hp
      · cases Option.some.inj hp
      · refine Or.inr ⟨by assumption, (List.getElem?_eq_some_iff.mp hp).1, hp⟩
  have hE2 : ∀ (q i0 : Nat),
      ((st.output.set (i + 1) (BF.Inst.LoopStart st.index)) ++ [BF.Inst.LoopEnd (i + 1)])[q]?
          = some (BF.Inst.LoopEnd i0) →
        (q = st.output.length ∧ i0 = i + 1)
        ∨ (q ≠ i + 1 ∧ q ≠ st.output.length ∧ st.output[q]? = some (BF.Inst.LoopEnd i0)) := by
    intro q i0 hq
    rw [hat] at hq
    split at hq
    · cases Option.some.inj hq
    · split at hq
      · exact Or.inl ⟨by assumption, (BF.Inst.LoopEnd.inj (Option.some.inj hq)).symm⟩
      · exact Or.inr ⟨by assumption, by assumption, hq⟩
  have hoffOld : ∀ (p : Nat), p ≠ i + 1 → offStack ls p → offStack st.loops p := by
    intro p hne hoff e he
    rw [hl] at he
    rcases List.mem_cons.mp he with rfl | he2
    · intro hh
      exact hne hh.symm
    · exact hoff e he2
  have hjne : ∀ (p j : Nat), st.output[j]? = some (BF.Inst.LoopEnd p) → j ≠ i + 1 := by
    intro p j hj hje
    rw [hje, hplace] at hj
    cases Option.some.inj hj
  refine ⟨?_, ?_, ?_, ?_, ?_, ?_, ?_, ?_⟩
  · simp [hidx]
  · intro e he
    have := htail e he
    simp
    omega
  · have hp := hInv.pdec
    rw [hl] at hp
    exact (List.pairwise_cons.mp hp).2
  · intro e he
    have he1 : e.1 < i + 1 := htail e he
    show ((st.output.set (i + 1) (BF.Inst.LoopStart st.index)) ++ [BF.Inst.LoopEnd (i + 1)])[e.1]?
        = some (.LoopStart e.1)
    rw [hat, if_neg (by omega), if_neg (by omega)]
    exact hInv.placeholder e (by rw [hl]; exact List.mem_cons_of_mem _ he)
  · intro p j hp hoff
    rcases hS2 p j hp with ⟨rfl, rfl⟩ | ⟨hne, hlt, hpold⟩
    · refine ⟨by omega, ?_⟩
      show ((st.output.set (i + 1) (BF.Inst.LoopStart st.index)) ++ [BF.Inst.LoopEnd (i + 1)])[st.index]?
          = some (.LoopEnd (i + 1))
      rw [hat, if_neg (by omega), if_pos hidx]
    · obtain ⟨h1, h2⟩ := hInv.resolvedS p j hpold (hoffOld p hne hoff)
      have hjn : j < st.output.length := (List.getElem?_eq_some_iff.mp h2).1
      refine ⟨h1, ?_⟩
      show ((st.output.set (i + 1) (BF.Inst.LoopStart st.index)) ++ [BF.Inst.LoopEnd (i + 1)])[j]?
          = some (.LoopEnd p)
      rw [hat, if_neg (hjne p j h2), if_neg (by omega)]
      exact h2
  · intro q i0 hq
    rcases hE2 q i0 hq with ⟨rfl, rfl⟩ | ⟨hne1, hne2, hqold⟩
    · refine ⟨hi1, ?_⟩
      show ((st.output.set (i + 1) (BF.Inst.LoopStart st.index)) ++ [BF.Inst.LoopEnd (i + 1)])[i + 1]?
          = some (.LoopStart st.output.length)
      rw [hat, if_pos rfl, hidx]
    · obtain ⟨h1, h2⟩ := hInv.resolvedE q i0 hqold
      have hi0q : i0 ≠ i + 1 := by
        intro hh
        rw [hh, hplace] at h2
        have := BF.Inst.LoopStart.inj (Option.some.inj h2)
        omega
      have hi0n : i0 < st.output.length := by
        have hqn : q ≤ st.output.length := by
          by_contra hcon
          rw [List.getElem?_eq_none (by omega)] at hqold
          cases hqold
        omega
      refine ⟨h1, ?_⟩
      show ((st.output.set (i + 1) (BF.Inst.LoopStart st.index)) ++ [BF.Inst.LoopEnd (i + 1)])[i0]?
          = some (.LoopStart q)
      rw [hat, if_neg hi0q, if_neg (by omega)]
      exact h2
  · intro p1 j1 p2 j2 hp1 ho1 hp2 ho2 hlt1 hlt2
    rcases hS2 p1 j1 hp1 with ⟨rfl, rfl⟩ | ⟨hne1, hl1, hp1old⟩
    · rcases hS2 p2 j2 hp2 with ⟨rfl, rfl⟩ | ⟨hne2, hl2, hp2old⟩
      · omega
      · have h2 := (hInv.resolvedS p2 j2 hp2old (hoffOld p2 hne2 ho2)).2
        have : j2 < st.output.length := (List.getElem?_eq_some_iff.mp h2).1
        omega
    · rcases hS2 p2 j2 hp2 with ⟨rfl, rfl⟩ | ⟨hne2, hl2, hp2old⟩
      · exfalso
        have := hInv.stacksep (i + 1, a, b) hmem p1 j1 hp1old (hoffOld p1 hne1 ho1)
        simp at this
        omega
      · exact hInv.nocross p1 j1 p2 j2 hp1old (hoffOld p1 hne1 ho1)
          hp2old (hoffOld p2 hne2 ho2) hlt1 hlt2
  · intro e he p j hp hoff
    rcases hS2 p j hp with ⟨rfl, rfl⟩ | ⟨hne, hlt, hpold⟩
    · left
      have := htail e he
      omega
    · exact hInv.stacksep e (by rw [hl]; exact List.mem_cons_of_mem _ he) p j hpold
        (hoffOld p hne hoff)

/-- Both branches of `sized_inst!` preserve the invariant. -/
theorem loopInvSized (ml : BF.Inst → Option Nat) (mk : Nat → BF.Inst) (st : BF.CState)
    (hmk : ∀ n, notLoop (mk n)) (hml : ∀ (v : BF.Inst) (n : Nat), ml v = some n → v = mk n)
    (hInv : LoopInv st) : LoopInv (BF.sizedInst ml mk st) := by
  unfold BF.sizedInst
  split
  · rename_i w hw
    split
    · rename_i n hn
      refine loopInvFold st (mk (n + 1)) w hInv hw ?_ (hmk (n + 1))
      rw [hml w n hn]
      exact hmk n
    · exact loopInvPush st (mk 1) st.loops st.line st.column hInv (hmk 1) rfl
  · exact loopInvPush st (mk 1) st.loops st.line st.column hInv (hmk 1) rfl

/-- Every step of the scanner preserves the invariant. -/
theorem bfStepLoopInv (st : BF.CState) (c : Char) (st2 : BF.CState)
    (h : BF.cstep st c = .ok st2) (hInv : LoopInv st) : LoopInv st2 := by
  have hb : LoopInv { st with column := st.column + 1 } :=
    ⟨hInv.ilen, hInv.bound, hInv.pdec, hInv.placeholder, hInv.resolvedS,
     hInv.resolvedE, hInv.nocross, hInv.stacksep⟩
  have hnl : ∀ (mk : Nat → BF.Inst), (∀ (n j : Nat), mk n ≠ .LoopStart j) →
      (∀ (n j : Nat), mk n ≠ .LoopEnd j) → ∀ n, notLoop (mk n) :=
    fun mk h1 h2 n => ⟨fun j => h1 n j, fun j => h2 n j⟩
  unfold BF.cstep at h
  split_ifs at h
  · cases h
    refine loopInvSized _ _ _ (hnl _ (fun n j hh => by cases hh) (fun n j hh => by cases hh))
      (fun v n hv => ?_) hb
    cases v <;> first
      | exact congrArg BF.Inst.Inc (Option.some.inj hv)
      | exact Option.noConfusion hv
  · cases h
    refine loopInvSized _ _ _ (hnl _ (fun n j hh => by cases hh) (fun n j hh => by cases hh))
      (fun v n hv => ?_) hb
    cases v <;> first
      | exact congrArg BF.Inst.Dec (Option.some.inj hv)
      | exact Option.noConfusion hv
  · cases h
    refine loopInvSized _ _ _ (hnl _ (fun n j hh => by cases hh) (fun n j hh => by cases hh))
      (fun v n hv => ?_) hb
    cases v <;> first
      | exact congrArg BF.Inst.ShiftRight (Option.some.inj hv)
      | exact Option.noConfusion hv
  · cases h
    refine loopInvSized _ _ _ (hnl _ (fun n j hh => by cases hh) (fun n j hh => by cases hh))
      (fun v n hv => ?_) hb
    cases v <;> first
      | exact congrArg BF.Inst.ShiftLeft (Option.some.inj hv)
      | exact Option.noConfusion hv
  · cases h
    refine loopInvSized _ _ _ (hnl _ (fun n j hh => by cases hh) (fun n j hh => by cases hh))
      (fun v n hv => ?_) hb
    cases v <;> first
      | exact congrArg BF.Inst.Input (Option.some.inj hv)
      | exact Option.noConfusion hv
  · cases h
    refine loopInvSized _ _ _ (hnl _ (fun n j hh => by cases hh) (fun n j hh => by cases hh))
      (fun v n hv => ?_) hb
    cases v <;> first
      | exact congrArg BF.Inst.Output (Option.some.inj hv)
      | exact Option.noConfusion hv
  · cases h
    exact loopInvOpen { st with column := st.column + 1 } st.line (st.column + 1) hb
  · dsimp only at h
    split at h
    · cases h
      exact loopInvEmpty _ _
    · rename_i i fst snd ls hll
      cases h
      exact loopInvClose { st with column := st.column + 1 } i fst snd ls hll hb
    · cases h
  · cases h
    exact ⟨hInv.ilen, hInv.bound, hInv.pdec, hInv.placeholder, hInv.resolvedS,
           hInv.resolvedE, hInv.nocross, hInv.stacksep⟩
  · cases h
    exact ⟨hInv.ilen, hInv.bound, hInv.pdec, hInv.placeholder, hInv.resolvedS,
           hInv.resolvedE, hInv.nocross, hInv.stacksep⟩

/-- Scanning any source preserves the invariant. -/
theorem bfScanLoopInv :
    ∀ (s : List Char) (st st2 : BF.CState),
      BF.compileChars st s = .ok st2 → LoopInv st → LoopInv st2 := by
  intro s
  induction s with
  | nil =>
    intro st st2 h hInv
    cases h
    exact hInv
  | cons c cs ih =>
    intro st st2 h hInv
    unfold BF.compileChars at h
    split at h
    · cases h
    · rename_i st1 hstep
      exact ih st1 st2 h (bfStepLoopInv st c st1 hstep hInv)

/-- C3: in every program produced by a successful compile, each
`LoopStart` (jump-if-zero) stores the index of its matching `LoopEnd`
(jump-if-nonzero), each `LoopEnd` stores the index of its matching
`LoopStart`, the partner always lies on the proper side, and the
resulting jump pairs never cross — they are properly nested. -/
theorem C3_jump_pairs_resolved :
    ∀ (src : List Char) (prog : List BF.Inst), BF.compile src = .ok prog →
      (∀ (p j : Nat), prog[p]? = some (.LoopStart j) →
          p < j ∧ prog[j]? = some (.LoopEnd p))
      ∧ (∀ (q i : Nat), prog[q]? = some (.LoopEnd i) →
          i < q ∧ prog[i]? = some (.LoopStart q))
      ∧ (∀ (p1 j1 p2 j2 : Nat), prog[p1]? = some (.LoopStart j1) →
          prog[p2]? = some (.LoopStart j2) → p1 < p2 → p2 < j1 → j2 < j1) := by
  intro src prog h
  unfold BF.compile at h
  split at h
  · cases h
  · rename_i st hcc
    split at h
    · cases h
    · rename_i hloops
      cases h
      have hInv : LoopInv st := bfScanLoopInv src BF.initState st hcc (loopInvEmpty 1 0)
      have hoffAll : ∀ (p : Nat), offStack st.loops p := by
        intro p e he
        rw [hloops] at he
        cases he
      refine ⟨?_, hInv.resolvedE, ?_⟩
      · intro p j hp
        exact hInv.resolvedS p j hp (hoffAll p)
      · intro p1 j1 p2 j2 hp1 hp2 hlt1 hlt2
        exact hInv.nocross p1 j1 p2 j2 hp1 (hoffAll p1) hp2 (hoffAll p2) hlt1 hlt2

/-- C3 (witness): the resolution facts instantiated on the compiled
form of `"+[-]"`: the `LoopStart` at index 1 targets 3 and the
`LoopEnd` at index 3 targets 1. -/
theorem C3_jump_pairs_resolved_witness :
    ((1 : Nat) < 3
      ∧ ([BF.Inst.Inc 1, .LoopStart 3, .Dec 1, .LoopEnd 1] : List BF.Inst)[3]?
          = some (.LoopEnd 1))
    ∧ ((1 : Nat) < 3
      ∧ ([BF.Inst.Inc 1, .LoopStart 3, .Dec 1, .LoopEnd 1] : List BF.Inst)[1]?
          = some (.LoopStart 3)) :=
  ⟨(C3_jump_pairs_resolved ['+', '[', '-', ']']
      [.Inc 1, .LoopStart 3, .Dec 1, .LoopEnd 1] rfl).1 1 3 rfl,
   (C3_jump_pairs_resolved ['+', '[', '-', ']']
      [.Inc 1, .LoopStart 3, .Dec 1, .LoopEnd 1] rfl).2.1 3 1 rfl⟩
